import Mathlib

/-!
Verification development for `check_inconsistency.py` (UMLS inconsistency
checker).  The Python source is shallowly embedded: `load_relationships`
becomes a fold of a per-line step over the list of input lines,
`find_hierarchy_cycles` becomes a fuel-indexed depth-first traversal over an
association-list model of Python's `defaultdict(list)`, and
`identify_broader_issues` is embedded over an edge-list model of the
`networkx` directed graph, with the library calls `nx.descendants` and
`nx.shortest_path` modelled by their documented semantics (set of reachable
nodes other than the source; a minimum-edge-count directed path).
-/

namespace UMLSCheck

/-! ## The relation loader (`load_relationships`, lines 25-67) -/

/-- State accumulated by `load_relationships`: the four accumulators created
at the top of the function plus the duplicate-edge counter (`Counter` is
modelled as a total function that is zero away from its support; Python sets
are modelled as `Finset`s). -/
structure LoadState where
  child_relations : Finset (String × String)
  broader_relations : Finset (String × String)
  repeats : String × String → Nat
  reflexives : Finset (String × String)
  rel_kinds : Finset String

/-- The empty accumulators at function entry. -/
def initState : LoadState :=
  { child_relations := ∅, broader_relations := ∅, repeats := fun _ => 0,
    reflexives := ∅, rel_kinds := ∅ }

/-- Body of the reading loop of `load_relationships` (lines 39-65), applied
to the pipe-separated field list of one line: skip lines with fewer than 5
fields, record the relation kind, divert reflexive records, then dispatch on
the four recognized codes. -/
def classify (st : LoadState) (fields : List String) : LoadState :=
  match fields with
  | src :: _ :: _ :: rel :: tgt :: _ =>
    let st1 := { st with rel_kinds := insert rel st.rel_kinds }
    if src = tgt then
      { st1 with reflexives := insert (src, rel) st1.reflexives }
    else if rel = "CHD" then
      { st1 with child_relations := insert (tgt, src) st1.child_relations,
                 repeats := Function.update st1.repeats (tgt, src)
                   (st1.repeats (tgt, src) + 1) }
    else if rel = "PAR" then
      { st1 with child_relations := insert (src, tgt) st1.child_relations,
                 repeats := Function.update st1.repeats (src, tgt)
                   (st1.repeats (src, tgt) + 1) }
    else if rel = "RB" then
      { st1 with broader_relations := insert (src, tgt) st1.broader_relations,
                 repeats := Function.update st1.repeats (src, tgt)
                   (st1.repeats (src, tgt) + 1) }
    else if rel = "RN" then
      { st1 with broader_relations := insert (tgt, src) st1.broader_relations,
                 repeats := Function.update st1.repeats (tgt, src)
                   (st1.repeats (tgt, src) + 1) }
    else st1
  | _ => st

/-- Split a character list at every `'|'`, mirroring Python's
`str.split("|")` (which returns one, possibly empty, field even for the
empty string). -/
def splitBar : List Char → List (List Char)
  | [] => [[]]
  | c :: rest =>
    if c = '|' then [] :: splitBar rest
    else
      match splitBar rest with
      | f :: fs => (c :: f) :: fs
      | [] => [[c]]

/-- Strip leading and trailing whitespace, mirroring Python's `str.strip()`. -/
def trimChars (cs : List Char) : List Char :=
  ((cs.dropWhile Char.isWhitespace).reverse.dropWhile Char.isWhitespace).reverse

/-- `line.strip().split("|")` from line 39. -/
def fieldsOf (line : String) : List String :=
  (splitBar (trimChars line.toList)).map fun f => String.mk f

/-- One iteration of the reading loop on a raw line. -/
def processLine (st : LoadState) (line : String) : LoadState :=
  classify st (fieldsOf line)

/-- The whole reading loop of `load_relationships` over the file's lines. -/
def loadLines (lines : List String) : LoadState :=
  lines.foldl processLine initState

/-- `load_relationships` itself: the existence check on the input path
(lines 32-34) happens before any line is read; a missing path raises
`FileNotFoundError`, modelled as the error case. -/
def load_relationships (pathExists : Bool) (lines : List String) :
    Except String LoadState :=
  if pathExists then .ok (loadLines lines) else .error "Cannot find file"

/-! ## Lemmas about the classifier -/

theorem classify_short (st : LoadState) (fields : List String)
    (h : fields.length < 5) : classify st fields = st := by
  rcases fields with _ | ⟨a, _ | ⟨b, _ | ⟨c, _ | ⟨d, _ | ⟨e, rest⟩⟩⟩⟩⟩ <;>
    first
      | rfl
      | (exfalso; simp [List.length] at h; omega)

theorem no_self_loop_classify (st : LoadState) (fields : List String)
    (e : String)
    (hc : (e, e) ∉ st.child_relations) (hb : (e, e) ∉ st.broader_relations) :
    (e, e) ∉ (classify st fields).child_relations ∧
      (e, e) ∉ (classify st fields).broader_relations := by
  rcases fields with _ | ⟨src, _ | ⟨f1, _ | ⟨f2, _ | ⟨rel, _ | ⟨tgt, rest⟩⟩⟩⟩⟩ <;>
    simp only [classify] <;> try exact ⟨hc, hb⟩
  by_cases hst : src = tgt
  · simp [hst, hc, hb]
  · simp only [if_neg hst]
    constructor <;> split <;> try split <;> try split <;> try split
    all_goals
      simp only [Finset.mem_insert]
      try exact hc
      try exact hb
    all_goals
      rintro (h | h)
      · injection h with h1 h2
        first
          | exact hst (h2.symm.trans h1)
          | exact hst (h1.symm.trans h2)
      · first | exact hc h | exact hb h

theorem no_self_loop_fold (lines : List String) (st : LoadState) (e : String)
    (hc : (e, e) ∉ st.child_relations) (hb : (e, e) ∉ st.broader_relations) :
    (e, e) ∉ (lines.foldl processLine st).child_relations ∧
      (e, e) ∉ (lines.foldl processLine st).broader_relations := by
  induction lines generalizing st with
  | nil => exact ⟨hc, hb⟩
  | cons l ls ih =>
    have h := no_self_loop_classify st (fieldsOf l) e hc hb
    exact ih (processLine st l) h.1 h.2

/-! ## Claims about the classifier and graph builder -/

/-- Claim C4: for every well-formed record with distinct source and target,
the four-way inversion rule holds: `CHD` with `(src, tgt)` yields hierarchy
edge `(tgt, src)`; `PAR` yields hierarchy edge `(src, tgt)`; `RB` yields
broader-than edge `(src, tgt)`; `RN` yields broader-than edge `(tgt, src)`;
any other code yields no edge in either graph. -/
theorem c4_classifier_inversion (st : LoadState) (a x y b : String)
    (rest : List String) (hab : a ≠ b) :
    ((classify st (a :: x :: y :: "CHD" :: b :: rest)).child_relations =
        insert (b, a) st.child_relations ∧
      (classify st (a :: x :: y :: "CHD" :: b :: rest)).broader_relations =
        st.broader_relations) ∧
    ((classify st (a :: x :: y :: "PAR" :: b :: rest)).child_relations =
        insert (a, b) st.child_relations ∧
      (classify st (a :: x :: y :: "PAR" :: b :: rest)).broader_relations =
        st.broader_relations) ∧
    ((classify st (a :: x :: y :: "RB" :: b :: rest)).broader_relations =
        insert (a, b) st.broader_relations ∧
      (classify st (a :: x :: y :: "RB" :: b :: rest)).child_relations =
        st.child_relations) ∧
    ((classify st (a :: x :: y :: "RN" :: b :: rest)).broader_relations =
        insert (b, a) st.broader_relations ∧
      (classify st (a :: x :: y :: "RN" :: b :: rest)).child_relations =
        st.child_relations) ∧
    (∀ c, c ≠ "CHD" → c ≠ "PAR" → c ≠ "RB" → c ≠ "RN" →
      (classify st (a :: x :: y :: c :: b :: rest)).child_relations =
          st.child_relations ∧
        (classify st (a :: x :: y :: c :: b :: rest)).broader_relations =
          st.broader_relations) := by
  refine ⟨⟨?_, ?_⟩, ⟨?_, ?_⟩, ⟨?_, ?_⟩, ⟨?_, ?_⟩, ?_⟩ <;>
    try (simp [classify, hab])
  intro c h1 h2 h3 h4
  simp [classify, hab, h1, h2, h3, h4]

/-- Witness for C4 at a concrete record. -/
theorem c4_classifier_inversion_witness :
    ("A" : String) ≠ "B" ∧
      (classify initState ["A", "x", "y", "CHD", "B"]).child_relations =
        insert ("B", "A") initState.child_relations :=
  ⟨by decide, (c4_classifier_inversion initState "A" "x" "y" "B" []
    (by decide)).1.1⟩

/-- Claim C5: the multiplicity map is keyed by the canonicalized edge, so a
child-of record `A→B` and the inverse parent-of record `B→A` increment the
same entry `(B, A)`; feeding the identical record twice increments that
entry by exactly 2 while the owning graph's adjacency structure (a set) is
unchanged by the second feed and contains the edge. -/
theorem c5_multiplicity_canonical (st : LoadState) (a x y u v b : String)
    (hab : a ≠ b) :
    (classify st [a, x, y, "CHD", b]).repeats (b, a) =
        st.repeats (b, a) + 1 ∧
    (classify st [b, u, v, "PAR", a]).repeats (b, a) =
        st.repeats (b, a) + 1 ∧
    (classify (classify st [a, x, y, "CHD", b]) [a, x, y, "CHD", b]).repeats
        (b, a) = st.repeats (b, a) + 2 ∧
    (classify (classify st [a, x, y, "CHD", b])
        [a, x, y, "CHD", b]).child_relations =
      (classify st [a, x, y, "CHD", b]).child_relations ∧
    (b, a) ∈ (classify st [a, x, y, "CHD", b]).child_relations := by
  have hba : ¬b = a := fun h => hab h.symm
  refine ⟨?_, ?_, ?_, ?_, ?_⟩ <;>
    simp [classify, hab, hba, Finset.insert_idem]

/-- Witness for C5 at a concrete record. -/
theorem c5_multiplicity_canonical_witness :
    ("A" : String) ≠ "B" ∧
      (classify (classify initState ["A", "x", "y", "CHD", "B"])
          ["A", "x", "y", "CHD", "B"]).repeats ("B", "A") =
        initState.repeats ("B", "A") + 2 :=
  ⟨by decide, (c5_multiplicity_canonical initState "A" "x" "y" "u" "v" "B"
    (by decide)).2.2.1⟩

/-- Claim C6: a record whose source equals its target contributes exactly one
reflexive link (and the observed relation kind) and nothing else, regardless
of code; consequently after the build phase neither graph contains a
self-loop edge. -/
theorem c6_reflexive_diverted :
    (∀ (st : LoadState) (a x y c : String) (rest : List String),
      classify st (a :: x :: y :: c :: a :: rest) =
        { st with rel_kinds := insert c st.rel_kinds,
                  reflexives := insert (a, c) st.reflexives }) ∧
    (∀ (lines : List String) (e : String),
      (e, e) ∉ (loadLines lines).child_relations ∧
        (e, e) ∉ (loadLines lines).broader_relations) := by
  constructor
  · intro st a x y c rest
    simp [classify]
  · intro lines e
    exact no_self_loop_fold lines initState e (by simp [initState])
      (by simp [initState])

/-- Claim C7 fails on the code: a `PAR` record and an `RB` record over the
same ordered concept pair put the directed pair `(A, B)` into both the
hierarchy graph and the broader-than graph. -/
theorem c7_counterexample :
    ("A", "B") ∈ (loadLines ["A|x|y|PAR|B", "A|x|y|RB|B"]).child_relations ∧
      ("A", "B") ∈
        (loadLines ["A|x|y|PAR|B", "A|x|y|RB|B"]).broader_relations := by
  decide

/-- Claim C7 (amended): the two graphs are built by disjoint relation codes,
so a single record never adds an edge to both graphs — every record leaves
the hierarchy graph unchanged or leaves the broader-than graph unchanged —
but the same directed pair can enter both graphs through different records. -/
theorem c7_amended_single_record_exclusive (st : LoadState)
    (fields : List String) :
    (classify st fields).child_relations = st.child_relations ∨
      (classify st fields).broader_relations = st.broader_relations := by
  rcases fields with _ | ⟨src, _ | ⟨f1, _ | ⟨f2, _ | ⟨rel, _ | ⟨tgt, rest⟩⟩⟩⟩⟩ <;>
    try exact Or.inl rfl
  simp only [classify]
  split
  · left; rfl
  · split
    · right; rfl
    · split
      · right; rfl
      · split
        · left; rfl
        · split
          · left; rfl
          · left; rfl

/-- Claim C8 fails on the code: a malformed record with four fields carries a
raw relation-type code (`RB`, at field index 3) but is skipped before the
observed-type set is updated, so its code is not recorded. -/
theorem c8_counterexample :
    "RB" ∉ (loadLines ["A|x|y|RB"]).rel_kinds ∧
      (fieldsOf "A|x|y|RB").length = 4 ∧
      (fieldsOf "A|x|y|RB").getLast? = some "RB" := by
  decide

/-- Claim C8 (amended): every record with at least five fields — including
records that produce no edge and reflexive records — has its raw
relation-type code recorded into the observed-type set, while a record with
fewer than five fields is skipped entirely, updating nothing. -/
theorem c8_amended_kind_recorded :
    (∀ (st : LoadState) (a x y c b : String) (rest : List String),
      c ∈ (classify st (a :: x :: y :: c :: b :: rest)).rel_kinds) ∧
    (∀ (st : LoadState) (fields : List String), fields.length < 5 →
      classify st fields = st) := by
  constructor
  · intro st a x y c b rest
    simp only [classify]
    split
    · exact Finset.mem_insert_self _ _
    · split
      · exact Finset.mem_insert_self _ _
      · split
        · exact Finset.mem_insert_self _ _
        · split
          · exact Finset.mem_insert_self _ _
          · split
            · exact Finset.mem_insert_self _ _
            · exact Finset.mem_insert_self _ _
  · exact classify_short

/-- Witness for C8 (amended) at concrete records. -/
theorem c8_amended_kind_recorded_witness :
    "RX" ∈ (classify initState ["A", "x", "y", "RX", "B"]).rel_kinds ∧
      (["A", "x", "y", "RB"] : List String).length < 5 ∧
      classify initState ["A", "x", "y", "RB"] = initState :=
  ⟨c8_amended_kind_recorded.1 initState "A" "x" "y" "RX" "B" [],
    by decide,
    c8_amended_kind_recorded.2 initState ["A", "x", "y", "RB"] (by decide)⟩

/-- Claim C9: loading fails iff the input path does not exist, and the
failure is raised before any record is parsed (no partial state); for an
existing path no line content whatsoever causes a failure — every line list
is fully processed into a final state. -/
theorem c9_fatal_only_missing_path (lines : List String) :
    load_relationships false lines = .error "Cannot find file" ∧
      load_relationships true lines = .ok (loadLines lines) ∧
      ∀ pe : Bool, (load_relationships pe lines).isOk = pe :=
  ⟨rfl, rfl, fun pe => by cases pe <;> rfl⟩

/-! ## The broader-than graph (`nx.DiGraph` over `broader_links`)

The graph handed to `identify_broader_issues` is modelled by its edge list;
its node set is the set of edge endpoints (the graph is built with
`add_edges_from`, so it has no isolated nodes). -/

/-- The edge relation of the directed graph. -/
def eRel (es : List (String × String)) (a b : String) : Prop := (a, b) ∈ es

instance (es : List (String × String)) (a b : String) :
    Decidable (eRel es a b) :=
  inferInstanceAs (Decidable ((a, b) ∈ es))

/-- The nodes of the graph: all edge endpoints, without duplicates. -/
def nodesList (es : List (String × String)) : List String :=
  (es.flatMap fun e => [e.1, e.2]).dedup

/-- The node set as a finite set. -/
def nodeFinset (es : List (String × String)) : Finset String :=
  (nodesList es).toFinset

/-- All successors of a set of nodes. -/
def succsF (es : List (String × String)) (s : Finset String) : Finset String :=
  (nodeFinset es).filter fun b => ∃ a ∈ s, (a, b) ∈ es

/-- One expansion step of the reachable set. -/
def stepF (es : List (String × String)) (s : Finset String) : Finset String :=
  s ∪ succsF es s

/-- Nodes reachable from `a` by a directed walk of at most `k` edges. -/
def layer (es : List (String × String)) (a : String) (k : Nat) :
    Finset String :=
  (stepF es)^[k] {a}

/-- The full set of nodes reachable from `a` (including `a` itself):
expansion reaches its fixpoint after at most `(nodeFinset es).card` steps. -/
def reachSet (es : List (String × String)) (a : String) : Finset String :=
  layer es a (nodeFinset es).card

theorem mem_nodesList_fst {es : List (String × String)} {a b : String}
    (h : (a, b) ∈ es) : a ∈ nodesList es := by
  simp only [nodesList, List.mem_dedup, List.mem_flatMap]
  exact ⟨(a, b), h, by simp⟩

theorem mem_nodesList_snd {es : List (String × String)} {a b : String}
    (h : (a, b) ∈ es) : b ∈ nodesList es := by
  simp only [nodesList, List.mem_dedup, List.mem_flatMap]
  exact ⟨(a, b), h, by simp⟩

theorem subset_stepF (es : List (String × String)) (s : Finset String) :
    s ⊆ stepF es s :=
  Finset.subset_union_left

theorem layer_succ (es : List (String × String)) (a : String) (k : Nat) :
    layer es a (k + 1) = stepF es (layer es a k) :=
  Function.iterate_succ_apply' (stepF es) k {a}

theorem layer_zero (es : List (String × String)) (a : String) :
    layer es a 0 = {a} := rfl

theorem layer_mono (es : List (String × String)) (a : String) {j k : Nat}
    (h : j ≤ k) : layer es a j ⊆ layer es a k := by
  induction k with
  | zero => cases Nat.le_zero.mp h; exact Finset.Subset.refl _
  | succ k ih =>
    rcases Nat.of_le_succ h with h' | h'
    · refine (ih h').trans ?_
      rw [layer_succ]
      exact subset_stepF es (layer es a k)
    · cases h'
      exact Finset.Subset.refl _

theorem self_mem_layer (es : List (String × String)) (a : String) (k : Nat) :
    a ∈ layer es a k :=
  layer_mono es a (Nat.zero_le k) (by simp [layer_zero])

theorem layer_subset_univ (es : List (String × String)) (a : String)
    (k : Nat) : layer es a k ⊆ insert a (nodeFinset es) := by
  induction k with
  | zero => simp [layer_zero]
  | succ k ih =>
    rw [layer_succ]
    intro x hx
    rcases Finset.mem_union.mp hx with h | h
    · exact ih h
    · exact Finset.mem_insert_of_mem (Finset.mem_of_mem_filter x h)

theorem layer_reach (es : List (String × String)) (a : String) {k : Nat}
    {b : String} (h : b ∈ layer es a k) :
    Relation.ReflTransGen (eRel es) a b := by
  induction k generalizing b with
  | zero =>
    rw [layer_zero, Finset.mem_singleton] at h
    exact h ▸ Relation.ReflTransGen.refl
  | succ k ih =>
    rw [layer_succ] at h
    rcases Finset.mem_union.mp h with h | h
    · exact ih h
    · obtain ⟨u, hu, hedge⟩ := (Finset.mem_filter.mp h).2
      exact (ih hu).tail hedge

theorem exists_layer_stab (es : List (String × String)) (a : String) :
    ∃ j ≤ (nodeFinset es).card, layer es a (j + 1) = layer es a j := by
  by_contra hcon
  push_neg at hcon
  have grow : ∀ k, k ≤ (nodeFinset es).card + 1 → k + 1 ≤ (layer es a k).card := by
    intro k
    induction k with
    | zero => intro _; simp [layer_zero]
    | succ k ih =>
      intro hk
      have h1 := ih (by omega)
      have hne := hcon k (by omega)
      have hss : layer es a k ⊂ layer es a (k + 1) :=
        Finset.ssubset_iff_subset_ne.mpr
          ⟨layer_mono es a (Nat.le_succ k), fun h => hne h.symm⟩
      have := Finset.card_lt_card hss
      omega
  have h2 := grow ((nodeFinset es).card + 1) (le_refl _)
  have h3 := Finset.card_le_card (layer_subset_univ es a ((nodeFinset es).card + 1))
  have h4 := Finset.card_insert_le a (nodeFinset es)
  omega

theorem layer_stab_ge (es : List (String × String)) (a : String) {j : Nat}
    (hstab : layer es a (j + 1) = layer es a j) :
    ∀ m, j ≤ m → layer es a m = layer es a j := by
  intro m hm
  induction m, hm using Nat.le_induction with
  | base => rfl
  | succ m hm ih => rw [layer_succ, ih, ← layer_succ, hstab]

theorem stepF_reachSet (es : List (String × String)) (a : String) :
    stepF es (reachSet es a) = reachSet es a := by
  obtain ⟨j, hj, hstab⟩ := exists_layer_stab es a
  have h1 : layer es a (nodeFinset es).card = layer es a j :=
    layer_stab_ge es a hstab _ hj
  have h2 : layer es a ((nodeFinset es).card + 1) = layer es a j :=
    layer_stab_ge es a hstab _ (by omega)
  show stepF es (layer es a (nodeFinset es).card) =
    layer es a (nodeFinset es).card
  rw [← layer_succ, h2, h1]

/-- Membership in the computed reachable set coincides with reflexive
transitive closure of the edge relation. -/
theorem reachSet_iff (es : List (String × String)) (a b : String) :
    b ∈ reachSet es a ↔ Relation.ReflTransGen (eRel es) a b := by
  constructor
  · exact fun h => layer_reach es a h
  · intro h
    induction h with
    | refl => exact self_mem_layer es a _
    | tail hab hbc ih =>
      rw [← stepF_reachSet es a]
      refine Finset.mem_union.mpr (Or.inr ?_)
      refine Finset.mem_filter.mpr ⟨?_, _, ih, hbc⟩
      exact List.mem_toFinset.mpr (mem_nodesList_snd hbc)

instance (es : List (String × String)) (a b : String) :
    Decidable (Relation.ReflTransGen (eRel es) a b) :=
  decidable_of_iff _ (reachSet_iff es a b)

/-! ## Directed walks and shortest paths (`nx.shortest_path`)

`nx.shortest_path` on an unweighted digraph returns a minimum-edge-count
path; which of several equally short paths is returned is unspecified.  It
is modelled here by breadth-first layers: the distance is the first layer
containing the target and the path is rebuilt backwards through
predecessors. -/

/-- A directed walk in the graph: nonempty, starting at `a`, ending at `b`,
with every consecutive pair an edge. -/
def IsPath (es : List (String × String)) (a b : String)
    (p : List String) : Prop :=
  p.head? = some a ∧ p.getLast? = some b ∧ p.Chain' (eRel es)

instance (es : List (String × String)) (a b : String) (p : List String) :
    Decidable (IsPath es a b p) :=
  inferInstanceAs (Decidable (_ ∧ _ ∧ _))

theorem head?_append_left {α : Type} (l l' : List α) (h : l ≠ []) :
    (l ++ l').head? = l.head? := by
  cases l with
  | nil => exact absurd rfl h
  | cons x xs => rfl

theorem IsPath.ne_nil {es : List (String × String)} {a b : String}
    {p : List String} (h : IsPath es a b p) : p ≠ [] := by
  intro hnil
  rw [hnil] at h
  exact Option.noConfusion h.1

theorem isPath_singleton (es : List (String × String)) (a : String) :
    IsPath es a a [a] :=
  ⟨rfl, rfl, List.chain'_singleton a⟩

theorem IsPath.concat {es : List (String × String)} {a u b : String}
    {p : List String} (hp : IsPath es a u p) (he : eRel es u b) :
    IsPath es a b (p ++ [b]) := by
  refine ⟨?_, List.getLast?_concat p, ?_⟩
  · rw [head?_append_left p [b] hp.ne_nil]
    exact hp.1
  · refine List.chain'_append.mpr ⟨hp.2.2, List.chain'_singleton b, ?_⟩
    intro x hx y hy
    have hx' : x = u := by
      rw [hp.2.1] at hx
      exact (Option.mem_some_iff.mp hx).symm
    have hy' : y = b := (Option.mem_some_iff.mp hy).symm
    rw [hx', hy']
    exact he

theorem IsPath.split_last {es : List (String × String)} {a b : String}
    {p : List String} (hp : IsPath es a b p) (hlen : 2 ≤ p.length) :
    ∃ q u, p = q ++ [b] ∧ IsPath es a u q ∧ eRel es u b := by
  have hne : p ≠ [] := hp.ne_nil
  have hqne : p.dropLast ≠ [] := by
    intro h
    have hl := p.length_dropLast
    rw [h] at hl
    simp at hl
    omega
  have hlast : p.getLast hne = b := by
    have h1 : p.getLast? = some (p.getLast hne) := List.getLast?_eq_getLast p hne
    rw [hp.2.1] at h1
    exact (Option.some_inj.mp h1).symm
  have hsplit : p = p.dropLast ++ [b] := by
    conv_lhs => rw [← List.dropLast_append_getLast hne]
    rw [hlast]
  have hchain := hp.2.2
  rw [hsplit] at hchain
  have hparts := List.chain'_append.mp hchain
  refine ⟨p.dropLast, p.dropLast.getLast hqne, hsplit, ⟨?_, ?_, hparts.1⟩, ?_⟩
  · have h1 := hp.1
    rw [hsplit, head?_append_left _ _ hqne] at h1
    exact h1
  · exact List.getLast?_eq_getLast _ hqne
  · refine hparts.2.2 _ ?_ b rfl
    exact List.getLast?_eq_getLast _ hqne

/-- A node is in layer `k` exactly when some directed walk of at most `k`
edges reaches it from `a`. -/
theorem mem_layer_iff_path (es : List (String × String)) (a : String) :
    ∀ (k : Nat) (b : String),
      b ∈ layer es a k ↔ ∃ p, IsPath es a b p ∧ p.length ≤ k + 1 := by
  intro k
  induction k with
  | zero =>
    intro b
    rw [layer_zero, Finset.mem_singleton]
    constructor
    · rintro rfl
      exact ⟨[b], isPath_singleton es b, by simp⟩
    · rintro ⟨p, hp, hlen⟩
      have hne := hp.ne_nil
      rcases p with _ | ⟨x, _ | ⟨y, xs⟩⟩
      · exact absurd rfl hne
      · have h1 : x = a := Option.some_inj.mp hp.1
        have h2 : x = b := Option.some_inj.mp hp.2.1
        rw [← h1, h2]
      · simp at hlen
  | succ k ih =>
    intro b
    rw [layer_succ]
    constructor
    · intro h
      rcases Finset.mem_union.mp h with h | h
      · obtain ⟨p, hp, hlen⟩ := (ih b).mp h
        exact ⟨p, hp, by omega⟩
      · obtain ⟨u, hu, hedge⟩ := (Finset.mem_filter.mp h).2
        obtain ⟨q, hq, hqlen⟩ := (ih u).mp hu
        refine ⟨q ++ [b], hq.concat hedge, ?_⟩
        simp only [List.length_append, List.length_singleton]
        omega
    · rintro ⟨p, hp, hlen⟩
      by_cases hshort : p.length ≤ k + 1
      · exact Finset.mem_union.mpr (Or.inl ((ih b).mpr ⟨p, hp, hshort⟩))
      · have hlen2 : 2 ≤ p.length := by
          have := List.length_pos.mpr hp.ne_nil
          omega
        obtain ⟨q, u, hsplit, hq, hedge⟩ := hp.split_last hlen2
        have hqlen : q.length ≤ k + 1 := by
          have : p.length = q.length + 1 := by rw [hsplit]; simp
          omega
        refine Finset.mem_union.mpr (Or.inr ?_)
        refine Finset.mem_filter.mpr ⟨?_, u, (ih u).mpr ⟨q, hq, hqlen⟩, hedge⟩
        exact List.mem_toFinset.mpr (mem_nodesList_snd hedge)

/-- Scan upwards from layer index `k` for the first layer containing `b`,
with enough fuel to cover every layer up to the fixpoint. -/
def scanLayer (es : List (String × String)) (a b : String) :
    Nat → Nat → Option Nat
  | _, 0 => none
  | k, fuel + 1 =>
    if b ∈ layer es a k then some k else scanLayer es a b (k + 1) fuel

/-- The breadth-first distance from `a` to `b` (number of edges of a
shortest directed walk), or `none` when unreachable. -/
def distSP (es : List (String × String)) (a b : String) : Option Nat :=
  scanLayer es a b 0 ((nodeFinset es).card + 1)

theorem scanLayer_some (es : List (String × String)) (a b : String) :
    ∀ (fuel k d : Nat), scanLayer es a b k fuel = some d →
      k ≤ d ∧ b ∈ layer es a d ∧ ∀ j, k ≤ j → j < d → b ∉ layer es a j := by
  intro fuel
  induction fuel with
  | zero => intro k d h; exact Option.noConfusion h
  | succ fuel ih =>
    intro k d h
    rw [scanLayer] at h
    by_cases hmem : b ∈ layer es a k
    · rw [if_pos hmem] at h
      cases Option.some_inj.mp h
      exact ⟨le_refl _, hmem, fun j h1 h2 => absurd h1 (by omega)⟩
    · rw [if_neg hmem] at h
      obtain ⟨h1, h2, h3⟩ := ih (k + 1) d h
      refine ⟨by omega, h2, fun j hj1 hj2 => ?_⟩
      rcases Nat.eq_or_lt_of_le hj1 with rfl | hj
      · exact hmem
      · exact h3 j hj hj2

theorem scanLayer_isSome (es : List (String × String)) (a b : String) :
    ∀ (fuel k m : Nat), b ∈ layer es a m → k ≤ m → m < k + fuel →
      (scanLayer es a b k fuel).isSome := by
  intro fuel
  induction fuel with
  | zero => intro k m _ _ h; omega
  | succ fuel ih =>
    intro k m hm h1 h2
    rw [scanLayer]
    by_cases hmem : b ∈ layer es a k
    · rw [if_pos hmem]; rfl
    · rw [if_neg hmem]
      have hk : k ≠ m := fun h => hmem (h ▸ hm)
      exact ih (k + 1) m hm (by omega) (by omega)

theorem distSP_some (es : List (String × String)) {a b : String}
    (h : Relation.ReflTransGen (eRel es) a b) :
    ∃ d, distSP es a b = some d ∧ b ∈ layer es a d ∧
      ∀ j, j < d → b ∉ layer es a j := by
  have hreach : b ∈ layer es a (nodeFinset es).card :=
    (reachSet_iff es a b).mpr h
  have hsome := scanLayer_isSome es a b ((nodeFinset es).card + 1) 0
    (nodeFinset es).card hreach (Nat.zero_le _) (by omega)
  obtain ⟨d, hd⟩ := Option.isSome_iff_exists.mp hsome
  obtain ⟨_, h2, h3⟩ := scanLayer_some es a b _ 0 d hd
  exact ⟨d, hd, h2, fun j hj => h3 j (Nat.zero_le j) hj⟩

/-- Pick a predecessor of `b` lying in layer `d` (used to rebuild a
shortest path backwards through the breadth-first layers). -/
def predSP (es : List (String × String)) (a : String) (d : Nat)
    (b : String) : Option String :=
  (nodesList es).find? fun u => decide (u ∈ layer es a d ∧ (u, b) ∈ es)

/-- Rebuild a path of at most `d` edges from `a` to `b` backwards through
the layers. -/
def buildPath (es : List (String × String)) (a : String) :
    Nat → String → List String
  | 0, b => [b]
  | d + 1, b =>
    match predSP es a d b with
    | some u => buildPath es a d u ++ [b]
    | none => [b]

theorem buildPath_valid (es : List (String × String)) (a : String) :
    ∀ (d : Nat) (b : String), b ∈ layer es a d →
      IsPath es a b (buildPath es a d b) ∧
        (buildPath es a d b).length ≤ d + 1 := by
  intro d
  induction d with
  | zero =>
    intro b hb
    rw [layer_zero, Finset.mem_singleton] at hb
    cases hb
    exact ⟨isPath_singleton es a, by simp [buildPath]⟩
  | succ d ih =>
    intro b hb
    rw [buildPath]
    cases hpred : predSP es a d b with
    | some u =>
      have hfound := List.find?_some hpred
      have hu : u ∈ layer es a d ∧ (u, b) ∈ es := of_decide_eq_true hfound
      obtain ⟨hp, hlen⟩ := ih u hu.1
      refine ⟨hp.concat hu.2, ?_⟩
      simp only [List.length_append, List.length_singleton]
      omega
    | none =>
      have hba : b = a := by
        by_contra hba
        have hex : ∃ j, b ∈ layer es a j := ⟨d + 1, hb⟩
        have hm := Nat.find_spec hex
        rcases hd : Nat.find hex with _ | m
        · rw [hd, layer_zero, Finset.mem_singleton] at hm
          exact hba hm
        · rw [hd, layer_succ] at hm
          rcases Finset.mem_union.mp hm with hmem | hmem
          · exact Nat.find_min hex (by omega) hmem
          · obtain ⟨u, hu, hedge⟩ := (Finset.mem_filter.mp hmem).2
            have humax : m ≤ d := by
              have := Nat.find_min' hex hb
              omega
            have hud : u ∈ layer es a d := layer_mono es a humax hu
            have hcontra := List.find?_eq_none.mp hpred u
              (mem_nodesList_fst hedge)
            exact hcontra (decide_eq_true ⟨hud, hedge⟩)
      cases hba
      exact ⟨isPath_singleton es a, by simp⟩

/-- The model of `nx.shortest_path(graph, a, b)`: a minimum-edge-count
directed path, `none` when `b` is not reachable from `a`. -/
def shortestPath (es : List (String × String)) (a b : String) :
    Option (List String) :=
  (distSP es a b).map fun d => buildPath es a d b

/-- Any directed walk from `a` to `b` witnesses membership of `b` in the
layer indexed by its edge count. -/
theorem path_mem_layer (es : List (String × String)) {a b : String}
    {q : List String} (hq : IsPath es a b q) :
    b ∈ layer es a (q.length - 1) := by
  have hpos := List.length_pos.mpr hq.ne_nil
  exact (mem_layer_iff_path es a (q.length - 1) b).mpr ⟨q, hq, by omega⟩

/-- `shortestPath` returns a genuinely shortest directed walk whenever the
target is reachable. -/
theorem shortestPath_spec (es : List (String × String)) {a b : String}
    (h : Relation.ReflTransGen (eRel es) a b) :
    ∃ d p, distSP es a b = some d ∧ shortestPath es a b = some p ∧
      IsPath es a b p ∧ p.length = d + 1 ∧
      ∀ q, IsPath es a b q → p.length ≤ q.length := by
  obtain ⟨d, hd, hmem, hmin⟩ := distSP_some es h
  obtain ⟨hp, hlen⟩ := buildPath_valid es a d b hmem
  have hlow : ∀ q, IsPath es a b q → d + 1 ≤ q.length := by
    intro q hq
    have hposq := List.length_pos.mpr hq.ne_nil
    have hlq := path_mem_layer es hq
    by_contra hcon
    exact hmin (q.length - 1) (by omega) hlq
  have hexact : (buildPath es a d b).length = d + 1 :=
    le_antisymm hlen (hlow _ hp)
  refine ⟨d, buildPath es a d b, hd, ?_, hp, hexact, ?_⟩
  · rw [shortestPath, hd]; rfl
  · intro q hq
    rw [hexact]
    exact hlow q hq

theorem getLast?_take_succ {α : Type} :
    ∀ (l : List α) (i : Nat) (h : i < l.length),
      (l.take (i + 1)).getLast? = some l[i] := by
  intro l
  induction l with
  | nil => intro i h; simp at h
  | cons x xs ih =>
    intro i h
    cases i with
    | zero => simp
    | succ i =>
      have hi : i < xs.length := by simpa using h
      have hne : xs.take (i + 1) ≠ [] := by
        intro hnil
        have hl : (xs.take (i + 1)).length = min (i + 1) xs.length :=
          List.length_take (i + 1) xs
        rw [hnil] at hl
        simp at hl
        omega
      show ((x :: xs).take (i + 1 + 1)).getLast? = some (x :: xs)[i + 1]
      rw [List.take_succ_cons]
      have hcons : x :: xs.take (i + 1) = [x] ++ xs.take (i + 1) := rfl
      rw [hcons, List.getLast?_append,
        Option.or_of_isSome (List.getLast?_isSome.mpr hne), ih i hi]
      simp

theorem path_take (es : List (String × String)) {a b : String}
    {p : List String} (hp : IsPath es a b p) (i : Nat) (h : i < p.length) :
    IsPath es a p[i] (p.take (i + 1)) := by
  refine ⟨?_, getLast?_take_succ p i h, hp.2.2.take (i + 1)⟩
  rw [List.head?_take]
  simp [hp.1]

theorem path_drop (es : List (String × String)) {a b : String}
    {p : List String} (hp : IsPath es a b p) (i : Nat) (h : i < p.length) :
    IsPath es p[i] b (p.drop i) := by
  have hne : p.drop i ≠ [] := by
    intro hnil
    have hl : (p.drop i).length = p.length - i := List.length_drop i p
    rw [hnil] at hl
    simp at hl
    omega
  refine ⟨?_, ?_, hp.2.2.drop i⟩
  · rw [List.head?_drop]
    exact List.getElem?_eq_getElem h
  · calc (p.drop i).getLast?
        = (p.drop i).getLast?.or (p.take i).getLast? :=
          (Option.or_of_isSome (List.getLast?_isSome.mpr hne)).symm
      _ = (p.take i ++ p.drop i).getLast? := (List.getLast?_append).symm
      _ = p.getLast? := by rw [List.take_append_drop]
      _ = some b := hp.2.1

/-- Everything `shortestPath` guarantees about a returned path, derived
directly from the returned distance. -/
theorem shortestPath_facts (es : List (String × String)) {a b : String}
    {p : List String} (hsp : shortestPath es a b = some p) :
    IsPath es a b p ∧
      (∃ d, distSP es a b = some d ∧ p.length = d + 1 ∧
        ∀ j, j < d → b ∉ layer es a j) ∧
      ∀ q, IsPath es a b q → p.length ≤ q.length := by
  rw [shortestPath] at hsp
  cases hd : distSP es a b with
  | none => rw [hd] at hsp; exact Option.noConfusion hsp
  | some d =>
    rw [hd] at hsp
    have hbuild : buildPath es a d b = p := Option.some_inj.mp hsp
    obtain ⟨_, hmem, hmin0⟩ := scanLayer_some es a b _ 0 d hd
    have hmin : ∀ j, j < d → b ∉ layer es a j :=
      fun j hj => hmin0 j (Nat.zero_le j) hj
    obtain ⟨hpath, hlen⟩ := buildPath_valid es a d b hmem
    rw [hbuild] at hpath hlen
    have hlow : ∀ q, IsPath es a b q → d + 1 ≤ q.length := by
      intro q hq
      have hposq := List.length_pos.mpr hq.ne_nil
      have hlq := path_mem_layer es hq
      by_contra hcon
      exact hmin (q.length - 1) (by omega) hlq
    have hexact : p.length = d + 1 := le_antisymm hlen (hlow _ hpath)
    exact ⟨hpath, ⟨d, rfl, hexact, hmin⟩,
      fun q hq => hexact ▸ hlow q hq⟩

/-- On a shortest path the target appears only as the final node. -/
theorem shortestPath_target_once (es : List (String × String))
    {a b : String} {p : List String}
    (hsp : shortestPath es a b = some p) : b ∉ p.dropLast := by
  obtain ⟨hp, ⟨d, _, hlen, _⟩, hshort⟩ := shortestPath_facts es hsp
  intro hbmem
  obtain ⟨i, hi, hget⟩ := List.mem_iff_getElem.mp hbmem
  have hi' : i < p.length := by
    have := p.length_dropLast
    omega
  rw [List.getElem_dropLast] at hget
  have htake := path_take es hp i hi'
  rw [hget] at htake
  have hle := hshort _ htake
  have htl : (p.take (i + 1)).length = i + 1 := by
    rw [List.length_take]
    omega
  have hdl := p.length_dropLast
  omega

/-- On a shortest path the source appears only as the initial node. -/
theorem shortestPath_source_once (es : List (String × String))
    {a b : String} {p : List String}
    (hsp : shortestPath es a b = some p) : a ∉ p.drop 1 := by
  obtain ⟨hp, ⟨d, _, hlen, _⟩, hshort⟩ := shortestPath_facts es hsp
  intro hamem
  obtain ⟨j, hj, hget⟩ := List.mem_iff_getElem.mp hamem
  have hj' : 1 + j < p.length := by
    have := List.length_drop 1 p
    omega
  rw [List.getElem_drop] at hget
  have hdrop := path_drop es hp (1 + j) hj'
  rw [hget] at hdrop
  have hle := hshort _ hdrop
  have hdl : (p.drop (1 + j)).length = p.length - (1 + j) :=
    List.length_drop (1 + j) p
  have hpos := List.length_pos.mpr hp.ne_nil
  omega

/-! ## The contradiction detector (`identify_broader_issues`, lines 108-123) -/

/-- One reported broader-than contradiction: the dict
`\x7b"from": source, "to": target, "path": fwd_path + back_path[1:]\x7d`. -/
structure Contra where
  src : String
  tgt : String
  path : List String
deriving DecidableEq, Repr

/-- The model of `nx.descendants(graph, n)`: every node reachable from `n`
other than `n` itself (as a duplicate-free list; the Python value is a set,
whose iteration order is arbitrary). -/
def descendantsL (es : List (String × String)) (n : String) : List String :=
  (nodesList es).filter fun m => decide (m ∈ reachSet es n ∧ m ≠ n)

/-- The reported witness path `fwd_path + back_path[1:]` (line 120). -/
def witnessPath (es : List (String × String)) (s t : String) : List String :=
  (shortestPath es s t).getD [] ++ ((shortestPath es t s).getD []).drop 1

/-- The inner loop of `identify_broader_issues` for one source node. -/
def contrasFor (es : List (String × String)) (s : String) : List Contra :=
  ((descendantsL es s).filter fun t => decide (s ∈ descendantsL es t)).map
    fun t => ⟨s, t, witnessPath es s t⟩

/-- `identify_broader_issues`: for every node of the broader-than graph and
every descendant of it that can reach it back, report the pair with its
witness path. -/
def identifyBroaderIssues (es : List (String × String)) : List Contra :=
  (nodesList es).flatMap (contrasFor es)

/-- The condition claim C1 states for a reported ordered pair. -/
def qualifies (es : List (String × String)) (s t : String) : Prop :=
  s ≠ t ∧ Relation.ReflTransGen (eRel es) s t ∧
    Relation.ReflTransGen (eRel es) t s

instance (es : List (String × String)) (s t : String) :
    Decidable (qualifies es s t) :=
  inferInstanceAs (Decidable (_ ∧ _ ∧ _))

theorem mem_descendantsL (es : List (String × String)) (n m : String) :
    m ∈ descendantsL es n ↔
      m ∈ nodesList es ∧ Relation.ReflTransGen (eRel es) n m ∧ m ≠ n := by
  simp [descendantsL, List.mem_filter, reachSet_iff, and_assoc]

theorem nodup_descendantsL (es : List (String × String)) (n : String) :
    (descendantsL es n).Nodup :=
  (List.nodup_dedup _).filter _

theorem qualifies_mem_nodes (es : List (String × String)) {s t : String}
    (h : qualifies es s t) : s ∈ nodesList es ∧ t ∈ nodesList es := by
  obtain ⟨hne, hst, hts⟩ := h
  constructor
  · rcases Relation.ReflTransGen.cases_head hst with rfl | ⟨c, hc, _⟩
    · exact absurd rfl hne
    · exact mem_nodesList_fst hc
  · rcases Relation.ReflTransGen.cases_head hts with rfl | ⟨c, hc, _⟩
    · exact absurd rfl hne.symm
    · exact mem_nodesList_fst hc

theorem nodup_nodesList (es : List (String × String)) :
    (nodesList es).Nodup :=
  List.nodup_dedup _

theorem countP_eq_ite_mem {l : List String} (hnd : l.Nodup) (t : String) :
    l.countP (fun x => decide (x = t)) = if t ∈ l then 1 else 0 := by
  induction l with
  | nil => rfl
  | cons x xs ih =>
    rcases List.nodup_cons.mp hnd with ⟨hx, hxs⟩
    rw [List.countP_cons, ih hxs]
    by_cases hxt : x = t
    · subst hxt
      simp [hx]
    · have hts : t ≠ x := fun h => hxt h.symm
      by_cases htm : t ∈ xs
      · simp [hxt, htm]
      · simp [hxt, htm, hts]

theorem sum_map_single (l : List String) (hnd : l.Nodup)
    (f : String → Nat) (s : String) (h0 : ∀ x ∈ l, x ≠ s → f x = 0) :
    (l.map f).sum = if s ∈ l then f s else 0 := by
  induction l with
  | nil => rfl
  | cons x xs ih =>
    rcases List.nodup_cons.mp hnd with ⟨hx, hxs⟩
    rw [List.map_cons, List.sum_cons]
    by_cases hxs' : x = s
    · subst hxs'
      have hz : (xs.map f).sum = 0 := by
        apply List.sum_eq_zero
        intro n hn
        obtain ⟨y, hy, rfl⟩ := List.mem_map.mp hn
        exact h0 y (List.mem_cons_of_mem x hy) (fun h => hx (h ▸ hy))
      simp [hz]
    · have hsx : s ≠ x := fun h => hxs' h.symm
      rw [h0 x (List.mem_cons_self x xs) hxs',
        ih hxs (fun y hy => h0 y (List.mem_cons_of_mem x hy))]
      by_cases hsm : s ∈ xs
      · simp [hsm]
      · simp [hsm, hsx]

theorem countP_contrasFor_ne (es : List (String × String)) (s t s' : String)
    (hne : s' ≠ s) :
    (contrasFor es s').countP
      (fun r => decide (r.src = s ∧ r.tgt = t)) = 0 := by
  rw [List.countP_eq_zero]
  intro r hr
  obtain ⟨t', _, rfl⟩ := List.mem_map.mp hr
  simp [hne]

theorem countP_contrasFor_self (es : List (String × String)) (s t : String) :
    (contrasFor es s).countP (fun r => decide (r.src = s ∧ r.tgt = t)) =
      if t ∈ descendantsL es s ∧ s ∈ descendantsL es t then 1 else 0 := by
  rw [contrasFor, List.countP_map]
  have hcongr : ((descendantsL es s).filter
      fun t' => decide (s ∈ descendantsL es t')).countP
        ((fun r : Contra => decide (r.src = s ∧ r.tgt = t)) ∘
          fun t' => ⟨s, t', witnessPath es s t'⟩) =
      ((descendantsL es s).filter
      fun t' => decide (s ∈ descendantsL es t')).countP
        (fun x => decide (x = t)) := by
    apply List.countP_congr
    intro t' _
    simp
  rw [hcongr, countP_eq_ite_mem ((nodup_descendantsL es s).filter _) t]
  by_cases h1 : t ∈ descendantsL es s ∧ s ∈ descendantsL es t
  · rw [if_pos h1, if_pos (List.mem_filter.mpr ⟨h1.1, decide_eq_true h1.2⟩)]
  · rw [if_neg h1, if_neg]
    intro hmem
    obtain ⟨hm1, hm2⟩ := List.mem_filter.mp hmem
    exact h1 ⟨hm1, of_decide_eq_true hm2⟩

/-- Claim C1: an ordered pair `(s, t)` is reported by the contradiction
detector exactly once iff `s` and `t` are distinct, `t` is reachable from
`s` and `s` is reachable from `t`; hence every qualifying unordered pair is
reported exactly twice, once in each direction, and the 3-node mutual cycle
yields exactly six contradictions. -/
theorem c1_contradiction_iff_mutual_reach :
    (∀ (es : List (String × String)) (s t : String),
      (identifyBroaderIssues es).countP
          (fun r => decide (r.src = s ∧ r.tgt = t)) =
        if qualifies es s t then 1 else 0) ∧
    (identifyBroaderIssues [("A", "B"), ("B", "C"), ("C", "A")]).length = 6 := by
  constructor
  · intro es s t
    rw [identifyBroaderIssues, List.countP_flatMap]
    simp only [Function.comp_def]
    rw [sum_map_single (nodesList es) (nodup_nodesList es)
      (fun s' => (contrasFor es s').countP
        (fun r => decide (r.src = s ∧ r.tgt = t))) s
      (fun x _ hx => countP_contrasFor_ne es s t x hx)]
    by_cases hq : qualifies es s t
    · obtain ⟨hsn, htn⟩ := qualifies_mem_nodes es hq
      obtain ⟨hne, hst, hts⟩ := hq
      rw [if_pos hsn, countP_contrasFor_self, if_pos, if_pos]
      · exact ⟨hne, hst, hts⟩
      · exact ⟨(mem_descendantsL es s t).mpr ⟨htn, hst, hne.symm⟩,
          (mem_descendantsL es t s).mpr ⟨hsn, hts, hne⟩⟩
    · rw [if_neg hq]
      by_cases hsn : s ∈ nodesList es
      · rw [if_pos hsn, countP_contrasFor_self, if_neg]
        intro ⟨h1, h2⟩
        obtain ⟨htn, hst, htne⟩ := (mem_descendantsL es s t).mp h1
        obtain ⟨_, hts, _⟩ := (mem_descendantsL es t s).mp h2
        exact hq ⟨htne.symm, hst, hts⟩
      · rw [if_neg hsn]
  · decide

/-- Claim C3: every reported contradiction's witness path is a shortest
directed walk source→target concatenated with a shortest directed walk
target→source, the shared target node appearing exactly once at the
junction; the witness begins and ends at the source and every consecutive
pair on it is an edge of the broader-than graph. -/
theorem c3_witness_path_shortest (es : List (String × String)) (r : Contra)
    (hr : r ∈ identifyBroaderIssues es) :
    ∃ fwd back,
      shortestPath es r.src r.tgt = some fwd ∧
      shortestPath es r.tgt r.src = some back ∧
      r.path = fwd ++ back.drop 1 ∧
      IsPath es r.src r.tgt fwd ∧
      (∀ q, IsPath es r.src r.tgt q → fwd.length ≤ q.length) ∧
      IsPath es r.tgt r.src back ∧
      (∀ q, IsPath es r.tgt r.src q → back.length ≤ q.length) ∧
      r.path.head? = some r.src ∧ r.path.getLast? = some r.src ∧
      r.path.Chain' (eRel es) ∧ r.path.count r.tgt = 1 := by
  rw [identifyBroaderIssues] at hr
  obtain ⟨s, _, hr⟩ := List.mem_flatMap.mp hr
  rw [contrasFor] at hr
  obtain ⟨t, ht, heq⟩ := List.mem_map.mp hr
  obtain ⟨ht1, ht2b⟩ := List.mem_filter.mp ht
  have ht2 := of_decide_eq_true ht2b
  obtain ⟨htn, hst, htne⟩ := (mem_descendantsL es s t).mp ht1
  obtain ⟨hsn, hts, hsne⟩ := (mem_descendantsL es t s).mp ht2
  obtain ⟨d1, fwd, hd1, hspf, hpf, hlenf, hminf⟩ := shortestPath_spec es hst
  obtain ⟨d2, back, hd2, hspb, hpb, hlenb, hminb⟩ := shortestPath_spec es hts
  subst heq
  refine ⟨fwd, back, hspf, hspb, ?_, hpf, hminf, hpb, hminb, ?_, ?_, ?_, ?_⟩
  · show witnessPath es s t = fwd ++ back.drop 1
    rw [witnessPath, hspf, hspb]
    rfl
  · -- head of the witness is the source
    show (witnessPath es s t).head? = some s
    rw [witnessPath, hspf, hspb]
    simp only [Option.getD_some]
    rw [head?_append_left _ _ hpf.ne_nil]
    exact hpf.1
  · -- last node of the witness is the source again
    show (witnessPath es s t).getLast? = some s
    rw [witnessPath, hspf, hspb]
    simp only [Option.getD_some]
    have hlb2 : 2 ≤ back.length := by
      rcases back with _ | ⟨x, _ | ⟨y, ys⟩⟩
      · exact absurd rfl hpb.ne_nil
      · have h1 : x = t := Option.some_inj.mp hpb.1
        have h2 : x = s := Option.some_inj.mp hpb.2.1
        exact absurd (h1 ▸ h2 ▸ rfl) hsne
      · simp
    rcases back with _ | ⟨x, _ | ⟨y, ys⟩⟩
    · simp at hlb2
    · simp at hlb2
    · rw [List.getLast?_append]
      have hdlast : (y :: ys).getLast? = some s := by
        have := hpb.2.1
        rwa [List.getLast?_cons_cons] at this
      simp only [List.drop_one, List.tail_cons]
      rw [hdlast]
      rfl
  · -- consecutive pairs are edges
    show (witnessPath es s t).Chain' (eRel es)
    rw [witnessPath, hspf, hspb]
    simp only [Option.getD_some]
    rcases back with _ | ⟨x, _ | ⟨y, ys⟩⟩
    · simp [hpf.2.2]
    · simp [hpf.2.2]
    · have hx : x = t := Option.some_inj.mp hpb.1
      subst hx
      have hchain := hpb.2.2
      rw [List.chain'_cons] at hchain
      refine List.chain'_append.mpr ⟨hpf.2.2, ?_, ?_⟩
      · simp only [List.drop_one, List.tail_cons]
        exact hchain.2
      · intro a ha b hb
        have ha' : a = x := by
          rw [hpf.2.1] at ha
          exact (Option.mem_some_iff.mp ha).symm
        simp only [List.drop_one, List.tail_cons, List.head?_cons] at hb
        have hb' : b = y := (Option.mem_some_iff.mp hb).symm
        rw [ha', hb']
        exact hchain.1
  · -- the target occurs exactly once, at the junction
    show (witnessPath es s t).count t = 1
    rw [witnessPath, hspf, hspb]
    simp only [Option.getD_some]
    rw [List.count_append]
    have hfwd1 : fwd.count t = 1 := by
      have hne := hpf.ne_nil
      have hlast : fwd.getLast hne = t := by
        have h1 := List.getLast?_eq_getLast fwd hne
        rw [hpf.2.1] at h1
        exact (Option.some_inj.mp h1).symm
      have hsplit : fwd = fwd.dropLast ++ [t] := by
        conv_lhs => rw [← List.dropLast_append_getLast hne]
        rw [hlast]
      rw [hsplit, List.count_append,
        List.count_eq_zero_of_not_mem (shortestPath_target_once es hspf)]
      simp
    have hback0 : (back.drop 1).count t = 0 :=
      List.count_eq_zero_of_not_mem (shortestPath_source_once es hspb)
    rw [hfwd1, hback0]

/-- Witness for C3 on the 2-cycle broader-than graph. -/
theorem c3_witness_path_shortest_witness :
    (⟨"A", "B", ["A", "B", "A"]⟩ : Contra) ∈
        identifyBroaderIssues [("A", "B"), ("B", "A")] ∧
      ∃ fwd back,
        shortestPath [("A", "B"), ("B", "A")] "A" "B" = some fwd ∧
        shortestPath [("A", "B"), ("B", "A")] "B" "A" = some back ∧
        (["A", "B", "A"] : List String) = fwd ++ back.drop 1 ∧
        IsPath [("A", "B"), ("B", "A")] "A" "B" fwd ∧
        (∀ q, IsPath [("A", "B"), ("B", "A")] "A" "B" q →
          fwd.length ≤ q.length) ∧
        IsPath [("A", "B"), ("B", "A")] "B" "A" back ∧
        (∀ q, IsPath [("A", "B"), ("B", "A")] "B" "A" q →
          back.length ≤ q.length) ∧
        (["A", "B", "A"] : List String).head? = some "A" ∧
        (["A", "B", "A"] : List String).getLast? = some "A" ∧
        (["A", "B", "A"] : List String).Chain'
          (eRel [("A", "B"), ("B", "A")]) ∧
        (["A", "B", "A"] : List String).count "B" = 1 :=
  ⟨by decide, c3_witness_path_shortest [("A", "B"), ("B", "A")]
    ⟨"A", "B", ["A", "B", "A"]⟩ (by decide)⟩

/-! ## The cycle detector (`find_hierarchy_cycles`, lines 71-104)

The adjacency structure is Python's `defaultdict(list)`: an insertion-ordered
association list in which a lookup of a missing key inserts that key with an
empty list (this autovivification is why the traversal can grow the map). -/

/-- The `defaultdict` model: insertion-ordered key/value pairs. -/
abbrev AdjList : Type := List (String × List String)

/-- Plain dictionary lookup (no insertion). -/
def lookupAdj (adj : AdjList) (k : String) : Option (List String) :=
  (adj.find? fun p => p.1 == k).map fun p => p.2

/-- `adjacency_list[current]` on a `defaultdict(list)`: return the stored
list, inserting the key with `[]` first when it is absent. -/
def adjGet (adj : AdjList) (k : String) : List String × AdjList :=
  match lookupAdj adj k with
  | some v => (v, adj)
  | none => ([], adj ++ [(k, [])])

/-- The edge relation an adjacency structure describes. -/
def aRel (adj : AdjList) (a b : String) : Prop :=
  b ∈ (lookupAdj adj a).getD []

instance (adj : AdjList) (a b : String) : Decidable (aRel adj a b) :=
  inferInstanceAs (Decidable (b ∈ (lookupAdj adj a).getD []))

/-- The canonical signature `tuple(sorted(loop))` (line 81).  A sorted tuple
of node ids is a canonical representative of the multiset of the loop's
nodes, and the key is only ever compared for equality, so it is modelled by
that multiset: two loops get equal keys iff their sorted tuples coincide. -/
def sig (l : List String) : Multiset String := ↑l

/-- `trail.index(current)`: index of the first occurrence. -/
def firstIdx (x : String) : List String → Nat
  | [] => 0
  | y :: ys => if y = x then 0 else firstIdx x ys + 1

/-- The mutable state of `find_hierarchy_cycles`: the `visited` and `stack`
sets, the shared `trail` list, the accumulated cycles and signatures, and
the (autovivifying) adjacency structure itself. -/
structure DfsState where
  visited : Finset String
  stck : Finset String
  trail : List String
  found : List (List String)
  seen : List (Multiset String)
  adj : AdjList

/-- `trail.pop()` and `stack.remove(current)` at the end of `dfs`. -/
def dfsPost (current : String) (s : DfsState) : DfsState :=
  { s with trail := s.trail.dropLast, stck := s.stck.erase current }

/-- The recursive `dfs` of `find_hierarchy_cycles`, with explicit fuel
bounding the recursion depth (the Python recursion always terminates, so
any fuel exceeding the number of distinct nodes plus one is equivalent).
On a back-edge the sub-trail from the first occurrence of `current` is
recorded when its signature is new; otherwise unvisited nodes are pushed,
their neighbors (autovivified lookup) explored in order, then popped. -/
def dfs (fuel : Nat) (current : String) (st : DfsState) : DfsState :=
  match fuel with
  | 0 => st
  | fuel + 1 =>
    if current ∈ st.stck then
      if sig (st.trail.drop (firstIdx current st.trail)) ∈ st.seen then st
      else
        { st with
          seen := st.seen ++ [sig (st.trail.drop (firstIdx current st.trail))],
          found := st.found ++ [st.trail.drop (firstIdx current st.trail)] }
    else if current ∈ st.visited then st
    else
      dfsPost current
        (((adjGet st.adj current).1).foldl (fun s n => dfs fuel n s)
          { visited := insert current st.visited,
            stck := insert current st.stck,
            trail := st.trail ++ [current],
            found := st.found, seen := st.seen,
            adj := (adjGet st.adj current).2 })

/-- Fuel that the traversal can never exhaust: more than the number of
distinct node names occurring anywhere in the adjacency structure. -/
def dfsFuel (adj : AdjList) : Nat :=
  ((adj.map Prod.fst) ++ adj.flatMap fun p => p.2).dedup.length + 2

/-- The outer loop of `find_hierarchy_cycles`: a fresh trail per root, roots
taken from a snapshot of the keys, skipping already-visited roots. -/
def runDfs (adj : AdjList) : DfsState :=
  (adj.map Prod.fst).foldl
    (fun s node =>
      if node ∈ s.visited then s
      else dfs (dfsFuel adj) node { s with trail := [] })
    ⟨∅, ∅, [], [], [], adj⟩

/-- `find_hierarchy_cycles`: the returned cycle list, paired with the final
adjacency structure (which the traversal may have autovivified). -/
def findHierarchyCycles (adj : AdjList) : List (List String) × AdjList :=
  ((runDfs adj).found, (runDfs adj).adj)

/-- Executable consecutive-pairs check, kept kernel-reducible. -/
def chainB (R : String → String → Bool) : List String → Bool
  | [] => true
  | [_] => true
  | a :: b :: rest => R a b && chainB R (b :: rest)

theorem chainB_iff (R : String → String → Prop) [DecidableRel R] :
    ∀ l : List String,
      chainB (fun a b => decide (R a b)) l = true ↔ l.Chain' R := by
  intro l
  induction l with
  | nil => simp [chainB]
  | cons a l ih =>
    cases l with
    | nil => simp [chainB]
    | cons b rest =>
      rw [List.chain'_cons, ← ih]
      simp [chainB]

/-- A directed cycle of the adjacency structure: a nonempty duplicate-free
node sequence in which every consecutive pair is an edge and the last node
has an edge back to the first. -/
def IsCyc (adj : AdjList) (l : List String) : Prop :=
  l ≠ [] ∧ l.Nodup ∧ (l ++ l.take 1).Chain' (aRel adj)

instance (adj : AdjList) (l : List String) : Decidable (IsCyc adj l) :=
  decidable_of_iff
    (l ≠ [] ∧ l.Nodup ∧
      chainB (fun a b => decide (aRel adj a b)) (l ++ l.take 1) = true)
    (and_congr Iff.rfl
      (and_congr Iff.rfl (chainB_iff (aRel adj) (l ++ l.take 1))))

/-- `adj` extends `adj0` only by entries carrying an empty adjacency list. -/
def ExtOnly (adj0 adj : AdjList) : Prop :=
  ∃ ext : List (String × List String),
    adj = adj0 ++ ext ∧ ∀ p ∈ ext, p.2 = ([] : List String)

theorem extOnly_refl (adj : AdjList) : ExtOnly adj adj :=
  ⟨[], (List.append_nil _).symm, by simp⟩

theorem lookupAdj_extOnly {adj0 adj : AdjList} (h : ExtOnly adj0 adj)
    (k : String) :
    (∀ v, lookupAdj adj0 k = some v → lookupAdj adj k = some v) ∧
      (lookupAdj adj0 k = none →
        lookupAdj adj k = none ∨ lookupAdj adj k = some []) := by
  obtain ⟨ext, rfl, hext⟩ := h
  constructor
  · intro v hv
    rw [lookupAdj] at hv
    rw [lookupAdj, List.find?_append]
    cases hf : adj0.find? fun p => p.1 == k with
    | none => rw [hf] at hv; simp at hv
    | some q => rw [hf] at hv; exact hv
  · intro hnone
    rw [lookupAdj] at hnone
    cases hf : adj0.find? fun p => p.1 == k with
    | some q => rw [hf] at hnone; simp at hnone
    | none =>
      rw [lookupAdj, List.find?_append, hf]
      cases hf2 : ext.find? fun p => p.1 == k with
      | none => exact Or.inl rfl
      | some q =>
        refine Or.inr ?_
        have hq := hext q (List.mem_of_find?_eq_some hf2)
        show Option.map (fun p => p.2) (some q) = some []
        simp [hq]

theorem aRel_extOnly {adj0 adj : AdjList} (h : ExtOnly adj0 adj)
    (a b : String) : aRel adj a b ↔ aRel adj0 a b := by
  rw [aRel, aRel]
  cases hl : lookupAdj adj0 a with
  | some v => rw [(lookupAdj_extOnly h a).1 v hl]
  | none =>
    rcases (lookupAdj_extOnly h a).2 hl with h2 | h2 <;> simp [h2]

theorem aRel_adjGet {adj0 adj : AdjList} (h : ExtOnly adj0 adj)
    {c b : String} (hb : b ∈ (adjGet adj c).1) : aRel adj0 c b := by
  rw [adjGet] at hb
  cases hl : lookupAdj adj c with
  | none => rw [hl] at hb; exact absurd hb (List.not_mem_nil b)
  | some v =>
    rw [hl] at hb
    have : aRel adj c b := by rw [aRel, hl]; exact hb
    exact (aRel_extOnly h c b).mp this

theorem extOnly_adjGet {adj0 adj : AdjList} (h : ExtOnly adj0 adj)
    (c : String) : ExtOnly adj0 (adjGet adj c).2 := by
  rw [adjGet]
  cases hl : lookupAdj adj c with
  | some v => exact h
  | none =>
    obtain ⟨ext, rfl, hext⟩ := h
    refine ⟨ext ++ [(c, [])], ?_, ?_⟩
    · exact List.append_assoc adj0 ext [(c, [])]
    · intro p hp
      rcases List.mem_append.mp hp with h1 | h1
      · exact hext p h1
      · rw [List.mem_singleton.mp h1]

theorem head?_drop_firstIdx {c : String} :
    ∀ {l : List String}, c ∈ l → (l.drop (firstIdx c l)).head? = some c := by
  intro l
  induction l with
  | nil => intro h; exact absurd h (List.not_mem_nil c)
  | cons y ys ih =>
    intro h
    by_cases hyc : y = c
    · rw [firstIdx, if_pos hyc, List.drop_zero, List.head?_cons, hyc]
    · have hmem : c ∈ ys := by
        rcases List.mem_cons.mp h with h' | h'
        · exact absurd h'.symm hyc
        · exact h'
      rw [firstIdx, if_neg hyc, List.drop_succ_cons]
      exact ih hmem

theorem getLast?_drop_of_ne_nil {α : Type} (l : List α) (i : Nat)
    (h : l.drop i ≠ []) : (l.drop i).getLast? = l.getLast? := by
  calc (l.drop i).getLast?
      = (l.drop i).getLast?.or (l.take i).getLast? :=
        (Option.or_of_isSome (List.getLast?_isSome.mpr h)).symm
    _ = (l.take i ++ l.drop i).getLast? := (List.getLast?_append).symm
    _ = l.getLast? := by rw [List.take_append_drop]

/-- The invariant the traversal preserves: the trail is a duplicate-free
edge-chain mirrored by the stack set, every recorded loop is a genuine
cycle of the original adjacency structure with its signature in `seen`,
recorded signatures are pairwise distinct, and the adjacency structure has
grown only by empty autovivified entries. -/
structure InvD (adj0 : AdjList) (st : DfsState) : Prop where
  chain : st.trail.Chain' (aRel adj0)
  nodup : st.trail.Nodup
  stack_iff : ∀ x, x ∈ st.stck ↔ x ∈ st.trail
  found_cyc : ∀ l ∈ st.found, IsCyc adj0 l
  found_seen : ∀ l ∈ st.found, sig l ∈ st.seen
  found_pair : st.found.Pairwise fun l1 l2 => sig l1 ≠ sig l2
  ext : ExtOnly adj0 st.adj

theorem dfs_inv (adj0 : AdjList) :
    ∀ (fuel : Nat) (current : String) (st : DfsState),
      InvD adj0 st →
      (st.trail = [] ∨
        ∃ u, st.trail.getLast? = some u ∧ aRel adj0 u current) →
      InvD adj0 (dfs fuel current st) ∧
        (dfs fuel current st).trail = st.trail ∧
        (dfs fuel current st).stck = st.stck := by
  intro fuel
  induction fuel with
  | zero => intro c st hinv _; exact ⟨hinv, rfl, rfl⟩
  | succ fuel ih =>
    intro c st hinv hedge
    rw [dfs]
    by_cases hstk : c ∈ st.stck
    · rw [if_pos hstk]
      by_cases hseen : sig (st.trail.drop (firstIdx c st.trail)) ∈ st.seen
      · rw [if_pos hseen]
        exact ⟨hinv, rfl, rfl⟩
      · rw [if_neg hseen]
        have hctrail : c ∈ st.trail := (hinv.stack_iff c).mp hstk
        have hloophead :
            (st.trail.drop (firstIdx c st.trail)).head? = some c :=
          head?_drop_firstIdx hctrail
        have hloopne : st.trail.drop (firstIdx c st.trail) ≠ [] := by
          intro h
          rw [h] at hloophead
          exact Option.noConfusion hloophead
        have htrailne : st.trail ≠ [] :=
          fun h => (List.not_mem_nil c) (h ▸ hctrail)
        obtain ⟨u, hu, hrel⟩ :
            ∃ u, st.trail.getLast? = some u ∧ aRel adj0 u c := by
          rcases hedge with h | h
          · exact absurd h htrailne
          · exact h
        have hloopcyc : IsCyc adj0 (st.trail.drop (firstIdx c st.trail)) := by
          refine ⟨hloopne, List.Nodup.sublist (List.drop_sublist _ _)
            hinv.nodup, ?_⟩
          have htake1 :
              (st.trail.drop (firstIdx c st.trail)).take 1 = [c] := by
            cases hl : st.trail.drop (firstIdx c st.trail) with
            | nil => exact absurd hl hloopne
            | cons x rest =>
              rw [hl, List.head?_cons] at hloophead
              rw [List.take_succ_cons, List.take_zero,
                Option.some_inj.mp hloophead]
          rw [htake1]
          refine List.chain'_append.mpr
            ⟨hinv.chain.drop _, List.chain'_singleton c, ?_⟩
          intro x hx y hy
          rw [getLast?_drop_of_ne_nil _ _ hloopne, hu] at hx
          have hx' : x = u := (Option.mem_some_iff.mp hx).symm
          have hy' : y = c := (Option.mem_some_iff.mp hy).symm
          rw [hx', hy']
          exact hrel
        refine ⟨⟨hinv.chain, hinv.nodup, hinv.stack_iff, ?_, ?_, ?_,
          hinv.ext⟩, rfl, rfl⟩
        · intro l hl
          rcases List.mem_append.mp hl with h | h
          · exact hinv.found_cyc l h
          · rw [List.mem_singleton.mp h]
            exact hloopcyc
        · intro l hl
          rcases List.mem_append.mp hl with h | h
          · exact List.mem_append_left _ (hinv.found_seen l h)
          · rw [List.mem_singleton.mp h]
            exact List.mem_append_right _ (by simp)
        · rw [List.pairwise_append]
          refine ⟨hinv.found_pair, List.pairwise_singleton _ _, ?_⟩
          intro l1 h1 l2 h2
          rw [List.mem_singleton.mp h2]
          intro hcontra
          exact hseen (hcontra ▸ hinv.found_seen l1 h1)
    · rw [if_neg hstk]
      by_cases hvis : c ∈ st.visited
      · rw [if_pos hvis]
        exact ⟨hinv, rfl, rfl⟩
      · rw [if_neg hvis]
        have hctrail : c ∉ st.trail := fun h => hstk ((hinv.stack_iff c).mpr h)
        have hinv2 : InvD adj0
            ⟨insert c st.visited, insert c st.stck, st.trail ++ [c],
              st.found, st.seen, (adjGet st.adj c).2⟩ := by
          refine ⟨?_, ?_, ?_, hinv.found_cyc, hinv.found_seen,
            hinv.found_pair, extOnly_adjGet hinv.ext c⟩
          · refine List.chain'_append.mpr
              ⟨hinv.chain, List.chain'_singleton c, ?_⟩
            intro x hx y hy
            have hy' : y = c := (Option.mem_some_iff.mp hy).symm
            rcases hedge with h | h
            · rw [h] at hx
              simp at hx
            · obtain ⟨u, hu, hrel⟩ := h
              rw [hu] at hx
              have hx' : x = u := (Option.mem_some_iff.mp hx).symm
              rw [hx', hy']
              exact hrel
          · rw [List.nodup_append]
            exact ⟨hinv.nodup, List.nodup_singleton c,
              fun a ha hb => hctrail ((List.mem_singleton.mp hb) ▸ ha)⟩
          · intro x
            simp only [Finset.mem_insert, List.mem_append,
              List.mem_singleton]
            rw [hinv.stack_iff x]
            tauto
        have hfold : ∀ (ns : List String) (s : DfsState),
            InvD adj0 s →
            s.trail = st.trail ++ [c] →
            (∀ n ∈ ns, aRel adj0 c n) →
            InvD adj0 (ns.foldl (fun s' n => dfs fuel n s') s) ∧
              (ns.foldl (fun s' n => dfs fuel n s') s).trail =
                st.trail ++ [c] ∧
              (ns.foldl (fun s' n => dfs fuel n s') s).stck = s.stck := by
          intro ns
          induction ns with
          | nil => intro s h1 h2 _; exact ⟨h1, h2, rfl⟩
          | cons n ns ihn =>
            intro s h1 h2 hrel
            rw [List.foldl_cons]
            have hcall := ih n s h1 (Or.inr ⟨c, by
              rw [h2]; exact List.getLast?_concat _,
              hrel n (List.mem_cons_self n ns)⟩)
            have hnext := ihn (dfs fuel n s) hcall.1
              (hcall.2.1.trans h2)
              (fun m hm => hrel m (List.mem_cons_of_mem n hm))
            exact ⟨hnext.1, hnext.2.1, hnext.2.2.trans hcall.2.2⟩
        have hnbrs : ∀ n ∈ (adjGet st.adj c).1, aRel adj0 c n :=
          fun n hn => aRel_adjGet hinv.ext hn
        have h3 := hfold (adjGet st.adj c).1
          ⟨insert c st.visited, insert c st.stck, st.trail ++ [c],
            st.found, st.seen, (adjGet st.adj c).2⟩ hinv2 rfl hnbrs
        obtain ⟨h3inv, h3trail, h3stck⟩ := h3
        refine ⟨⟨?_, ?_, ?_, h3inv.found_cyc, h3inv.found_seen,
          h3inv.found_pair, h3inv.ext⟩, ?_, ?_⟩
        · show (_ : List String).dropLast.Chain' (aRel adj0)
          rw [h3trail, List.dropLast_concat]
          exact hinv.chain
        · show (_ : List String).dropLast.Nodup
          rw [h3trail, List.dropLast_concat]
          exact hinv.nodup
        · intro x
          show x ∈ Finset.erase _ c ↔ x ∈ List.dropLast _
          rw [h3trail, h3stck, List.dropLast_concat,
            Finset.erase_insert hstk]
          exact hinv.stack_iff x
        · show (_ : List String).dropLast = st.trail
          rw [h3trail, List.dropLast_concat]
        · show Finset.erase _ c = st.stck
          rw [h3stck, Finset.erase_insert hstk]

theorem runDfs_inv (adj : AdjList) :
    InvD adj (runDfs adj) ∧ (runDfs adj).trail = [] ∧
      (runDfs adj).stck = ∅ := by
  have haux : ∀ (ks : List String) (s : DfsState),
      InvD adj s → s.trail = [] → s.stck = ∅ →
      InvD adj (ks.foldl
        (fun s' node => if node ∈ s'.visited then s'
          else dfs (dfsFuel adj) node { s' with trail := [] }) s) ∧
      (ks.foldl (fun s' node => if node ∈ s'.visited then s'
          else dfs (dfsFuel adj) node { s' with trail := [] }) s).trail
        = [] ∧
      (ks.foldl (fun s' node => if node ∈ s'.visited then s'
          else dfs (dfsFuel adj) node { s' with trail := [] }) s).stck
        = ∅ := by
    intro ks
    induction ks with
    | nil => intro s h1 h2 h3; exact ⟨h1, h2, h3⟩
    | cons k ks ihn =>
      intro s h1 h2 h3
      rw [List.foldl_cons]
      by_cases hv : k ∈ s.visited
      · rw [if_pos hv]
        exact ihn s h1 h2 h3
      · rw [if_neg hv]
        have hinv' : InvD adj { s with trail := [] } := by
          refine ⟨List.chain'_nil, List.nodup_nil, ?_, h1.found_cyc,
            h1.found_seen, h1.found_pair, h1.ext⟩
          intro x
          rw [h3]
          simp
        have hcall := dfs_inv adj (dfsFuel adj) k { s with trail := [] }
          hinv' (Or.inl rfl)
        exact ihn _ hcall.1 hcall.2.1 (hcall.2.2.trans h3)
  exact haux (adj.map Prod.fst) ⟨∅, ∅, [], [], [], adj⟩
    ⟨List.chain'_nil, List.nodup_nil, by simp, by simp, by simp,
      List.Pairwise.nil, extOnly_refl adj⟩ rfl rfl

/-- Claim C2 fails on the code: in the graph with adjacency
`a ↦ [b, c], b ↦ [c, a], c ↦ [b]` the node sequence `a → c → b → a` is a
directed cycle with node set (as a finset) `\x7ba, b, c\x7d`, yet the detector
reports exactly the cycles `[b, c]` and `[a, b]`, neither of which has that
node set: with a global visited set, a cycle whose edges are all explored as
cross- or forward-edges is never captured. -/
theorem c2_counterexample :
    IsCyc [("a", ["b", "c"]), ("b", ["c", "a"]), ("c", ["b"])]
        ["a", "c", "b"] ∧
      (findHierarchyCycles
          [("a", ["b", "c"]), ("b", ["c", "a"]), ("c", ["b"])]).1 =
        [["b", "c"], ["a", "b"]] ∧
      (["b", "c"] : List String).toFinset ≠
        (["a", "c", "b"] : List String).toFinset ∧
      (["a", "b"] : List String).toFinset ≠
        (["a", "c", "b"] : List String).toFinset := by
  decide

/-- Claim C2 (amended): every cycle the detector reports is a genuine
directed cycle of the adjacency structure, no two reports share a node set,
and an acyclic graph yields zero reports; but the detector does not find a
report for every directed cycle's node set. -/
theorem c2_amended_sound_dedup_acyclic (adj : AdjList) :
    (∀ l ∈ (findHierarchyCycles adj).1, IsCyc adj l) ∧
      ((findHierarchyCycles adj).1).Pairwise
        (fun l1 l2 => l1.toFinset ≠ l2.toFinset) ∧
      ((∀ l, ¬ IsCyc adj l) → (findHierarchyCycles adj).1 = []) := by
  have hinv := (runDfs_inv adj).1
  refine ⟨hinv.found_cyc, ?_, ?_⟩
  · refine List.Pairwise.imp_of_mem ?_ hinv.found_pair
    intro l1 l2 h1 h2 hne heq
    have hn1 := (hinv.found_cyc l1 h1).2.1
    have hn2 := (hinv.found_cyc l2 h2).2.1
    exact hne (Multiset.coe_eq_coe.mpr
      (List.perm_of_nodup_nodup_toFinset_eq hn1 hn2 heq))
  · intro hnone
    cases hfc : (findHierarchyCycles adj).1 with
    | nil => rfl
    | cons l ls =>
      have hmem : l ∈ (findHierarchyCycles adj).1 := by
        rw [hfc]
        exact List.mem_cons_self l ls
      exact absurd (hinv.found_cyc l hmem) (hnone l)

/-- Witness for the amended C2 on the 2-node mutual cycle. -/
theorem c2_amended_sound_dedup_acyclic_witness :
    (["A", "B"] ∈ (findHierarchyCycles [("A", ["B"]), ("B", ["A"])]).1) ∧
      IsCyc [("A", ["B"]), ("B", ["A"])] ["A", "B"] :=
  ⟨by decide, (c2_amended_sound_dedup_acyclic [("A", ["B"]), ("B", ["A"])]).1
    ["A", "B"] (by decide)⟩

/-- Claim C10 fails on the code: running the cycle detector on the
adjacency structure `\x7bA: [B]\x7d` autovivifies the missing key `B` (the
`defaultdict` lookup `adjacency_list[current]` inserts it), so the key set
of the adjacency structure changes. -/
theorem c10_counterexample :
    (findHierarchyCycles [("A", ["B"])]).2 = [("A", ["B"]), ("B", [])] ∧
      (findHierarchyCycles [("A", ["B"])]).2 ≠ [("A", ["B"])] := by
  decide

/-- Claim C10 (amended): the detectors never change any stored adjacency
list — the cycle detector only appends autovivified entries with empty
lists for traversed nodes missing from the map, so every existing entry is
preserved and the edge relation is unchanged (and the contradiction
detector, which is embedded as a pure function, reads its graph only). -/
theorem c10_amended_read_only_up_to_autovivify (adj : AdjList) :
    ExtOnly adj (findHierarchyCycles adj).2 ∧
      (∀ a b, aRel (findHierarchyCycles adj).2 a b ↔ aRel adj a b) ∧
      ∀ k v, lookupAdj adj k = some v →
        lookupAdj (findHierarchyCycles adj).2 k = some v := by
  have hext := (runDfs_inv adj).1.ext
  exact ⟨hext, fun a b => aRel_extOnly hext a b,
    fun k v hv => (lookupAdj_extOnly hext k).1 v hv⟩

end UMLSCheck
